/-
Verification development for the Henzai search engine core.

The definitions below are a shallow embedding of the Python sources:
  src/indexing/indexer.py      (Indexer.index_document, flush, auto-flush loop)
  src/ranking/ranker.py        (Ranker._update_cache, _calculate_bm25_score)
  src/ranking/advanced_ranker.py (AdvancedRanker candidate/scoring logic)
  src/processing/query_parser.py (QueryParser.parse, validate_query)
  src/search/search_manager.py (SearchManager._blend_results, _extract_domain)
  src/crawler/spider.py        (Spider.crawl, _crawl_and_extract)

Python dicts are embedded as insertion-ordered association lists, sets as
lists of distinct elements, floats as exact rationals, and exceptions as
Except values.  Theorems about each specified property follow the
definitions.
-/
import Mathlib

attribute [local semireducible] Rat.mul Rat.add Rat.sub Rat.inv

namespace Henzai

/-! ## Inverted index (src/indexing/indexer.py)

`Indexer.index` is `defaultdict(list)` mapping a term to a list of
`[doc_id, freq]` postings; we embed it as an insertion-ordered association
list.  `index_document` first builds the per-call `term_freq` dictionary,
then merges each (term, freq) into the shared postings list. -/

/-- A postings list: `[doc_id, freq]` pairs in insertion order. -/
abbrev Postings := List (String × Nat)

/-- The inverted index: term -> postings, in insertion order. -/
abbrev InvIndex := List (String × Postings)

/-- One step of building `term_freq`: `term_freq[token] += 1` on a
`defaultdict(int)` (update the existing entry, else append with count 1). -/
def bumpCount : List (String × Nat) → String → List (String × Nat)
  | [], t => [(t, 1)]
  | (k, v) :: rest, t =>
    if k = t then (k, v + 1) :: rest else (k, v) :: bumpCount rest t

/-- The per-call `term_freq` dictionary of `index_document`. -/
def termFreqList (tokens : List String) : List (String × Nat) :=
  tokens.foldl bumpCount []

/-- The merge loop of `index_document`: add `freq` to the first posting
whose doc id matches, else append a fresh `[doc_id, freq]` posting. -/
def mergePosting : Postings → String → Nat → Postings
  | [], d, f => [(d, f)]
  | (k, v) :: rest, d, f =>
    if k = d then (k, v + f) :: rest else (k, v) :: mergePosting rest d f

/-- Update the index under one term (`self.index[term]` on a `defaultdict`
creates the entry when absent, then the postings are merged). -/
def updateIndexTerm : InvIndex → String → String → Nat → InvIndex
  | [], term, d, f => [(term, mergePosting [] d f)]
  | (t, ps) :: rest, term, d, f =>
    if t = term then (t, mergePosting ps d f) :: rest
    else (t, ps) :: updateIndexTerm rest term d f

/-- `Indexer.index_document doc_id tokens` acting on the in-memory index. -/
def indexDocument (idx : InvIndex) (docId : String) (tokens : List String) : InvIndex :=
  (termFreqList tokens).foldl (fun i p => updateIndexTerm i p.1 docId p.2) idx

/-- A sequence of `index_document` calls starting from the empty index. -/
def runIndexCalls (calls : List (String × List String)) : InvIndex :=
  calls.foldl (fun i c => indexDocument i c.1 c.2) []

/-- Dictionary lookup of the postings stored under a term (empty when absent). -/
def postingsFor : InvIndex → String → Postings
  | [], _ => []
  | (t, ps) :: rest, term => if t = term then ps else postingsFor rest term

/-- Total frequency recorded for a key in an association list
(the sum of all its entries, so duplicates are accounted for). -/
def sumFreq (ps : List (String × Nat)) (key : String) : Nat :=
  ((ps.filter (fun p => p.1 == key)).map Prod.snd).sum

/-- Merged frequency held by the index for a (term, document) pair. -/
def freqIn (idx : InvIndex) (term docId : String) : Nat :=
  sumFreq (postingsFor idx term) docId

/-- Document ids appearing in a postings list. -/
def docsOf (ps : Postings) : List String :=
  ps.map Prod.fst


/-- Well-formedness of the index: under every term, at most one posting per
document. -/
def IndexWF (idx : InvIndex) : Prop :=
  ∀ term, (docsOf (postingsFor idx term)).Nodup

/-! ## BM25 ranker (src/ranking/ranker.py)

`Ranker._update_cache` accumulates, per document, the total of its term
frequencies over the whole inverted index, then divides by the number of
documents to cache the average length.  `_calculate_bm25_score` returns 0.0
when the cached average is zero and otherwise evaluates the BM25 formula.
Floats are embedded as exact rationals; the IDF factor, computed by
`_calculate_idf` with `math.log` and clamped by `max(0, idf)`, enters the
formula as the rational `max 0 r` for an arbitrary rational `r`. -/

/-- `self._doc_lengths[doc_id] = self._doc_lengths.get(doc_id, 0) + term_freq`:
add to the entry in place, else append a new one. -/
def addDocLen : List (String × Nat) → String → Nat → List (String × Nat)
  | [], d, tf => [(d, tf)]
  | (k, v) :: rest, d, tf =>
    if k = d then (k, v + tf) :: rest else (k, v) :: addDocLen rest d tf

/-- Document length cache computed by `_update_cache` from the index. -/
def docLengths (idx : InvIndex) : List (String × Nat) :=
  idx.foldl (fun acc e => e.2.foldl (fun a p => addDocLen a p.1 p.2) acc) []

/-- Plain dictionary lookup with default 0 (`dict.get(doc_id, 0)`). -/
def lookupNat : List (String × Nat) → String → Nat
  | [], _ => 0
  | (k, v) :: rest, d => if k = d then v else lookupNat rest d

/-- `self._total_docs`: number of distinct documents in the cache. -/
def totalDocs (idx : InvIndex) : Nat :=
  (docLengths idx).length

/-- `self._avg_doc_length`: average document length, 0.0 when the corpus is
empty. -/
def avgDocLength (idx : InvIndex) : ℚ :=
  if 0 < totalDocs idx then
    (((docLengths idx).map Prod.snd).sum : ℚ) / (totalDocs idx : ℚ)
  else 0

/-- `Ranker._calculate_bm25_score` for a term with IDF value `idf`, document
`docId` and term frequency `tf`: returns 0.0 before dividing when the cached
average document length is zero, otherwise applies the BM25 formula
`idf * tf*(k1+1) / (tf + k1*(1 - b + b*(docLen/avgLen)))`. -/
def calculateBm25Score (idx : InvIndex) (k1 b idf : ℚ) (docId : String) (tf : ℚ) : ℚ :=
  if avgDocLength idx = 0 then 0
  else
    let docLength : ℚ := (lookupNat (docLengths idx) docId : ℚ)
    let lengthNorm : ℚ := 1 - b + b * (docLength / avgDocLength idx)
    idf * (tf * (k1 + 1) / (tf + k1 * lengthNorm))

/-! ## Query parser (src/processing/query_parser.py)

The parser works by regular-expression scanning over the raw query string.
We embed the concrete regexes used by `QueryParser` as character-level
scanners over `List Char`: `re.finditer` collects non-overlapping matches
left to right on the string it was created from, and `str.replace(old, new)`
replaces every occurrence.  `\w` is modelled for ASCII input as
letter/digit/underscore, `\s` and `str.strip` as the ASCII whitespace set. -/

/-- Python regex `\w` on ASCII input: letters, digits and underscore. -/
def wordChar (c : Char) : Bool :=
  c.isAlphanum || c = '_'

/-- Python regex `\s` and `str.strip` whitespace (ASCII subset). -/
def pySpace (c : Char) : Bool :=
  c = ' ' || c = '\t' || c = '\n' || c = '\r' || c = '\x0b' || c = '\x0c'

/-- Python `str.strip()`: drop leading and trailing whitespace. -/
def stripChars (cs : List Char) : List Char :=
  ((cs.dropWhile pySpace).reverse.dropWhile pySpace).reverse

/-- One step of Python `str.replace(old, "")` (left-to-right, non-overlapping);
the fuel is an upper bound on the number of characters scanned. -/
def replaceAllAux : Nat → List Char → List Char → List Char
  | 0, cs, _ => cs
  | _ + 1, [], _ => []
  | fuel + 1, c :: cs, old =>
    if old.isPrefixOf (c :: cs) then replaceAllAux fuel ((c :: cs).drop old.length) old
    else c :: replaceAllAux fuel cs old

/-- Python `str.replace(old, "")` for a non-empty pattern `old`. -/
def replaceAll (cs old : List Char) : List Char :=
  replaceAllAux cs.length cs old

/-- Generic left-to-right regex scan (`re.finditer`): try the matcher at each
position, emit the match and continue after it, else advance one character. -/
def scanMatches (matchAt : List Char → Option (α × List Char)) : Nat → List Char → List α
  | 0, _ => []
  | _ + 1, [] => []
  | fuel + 1, c :: cs =>
    match matchAt (c :: cs) with
    | some (a, rest) => a :: scanMatches matchAt fuel rest
    | none => scanMatches matchAt fuel cs

/-- Match of the filter regex `(\w+):([^\s]+)` at the current position,
returning ((group1, group2), rest). -/
def filterMatchAt (cs : List Char) : Option ((List Char × List Char) × List Char) :=
  let name := cs.takeWhile wordChar
  if name.isEmpty then none
  else
    match cs.drop name.length with
    | ':' :: rest2 =>
      let value := rest2.takeWhile (fun c => !pySpace c)
      if value.isEmpty then none
      else some ((name, value), rest2.drop value.length)
    | _ => none

/-- All matches of `(\w+):([^\s]+)` in a string. -/
def findFilterMatches (cs : List Char) : List (List Char × List Char) :=
  scanMatches filterMatchAt cs.length cs

/-- The recognized filter names of `QueryParser.supported_filters`. -/
def supportedFilters : List String :=
  ["site", "filetype", "ext", "date", "before", "after", "lang"]

/-- Python `str.lower()` on a character list. -/
def lowerChars (cs : List Char) : List Char :=
  cs.map Char.toLower

/-- Python dict assignment `d[k] = v`: overwrite in place, else append. -/
def insertAssoc : List (String × String) → String → String → List (String × String)
  | [], k, v => [(k, v)]
  | (k0, v0) :: rest, k, v =>
    if k0 = k then (k0, v) :: rest else (k0, v0) :: insertAssoc rest k v

/-- `QueryParser._extract_filters`: collect known `name:value` filters from
the original string, remove each matched text, and strip the result. -/
def extractFilters (q : List Char) : List Char × List (String × String) :=
  let ms := findFilterMatches q
  let r := ms.foldl
    (fun (acc : List Char × List (String × String)) m =>
      let name := String.mk (lowerChars m.1)
      if supportedFilters.contains name then
        (replaceAll acc.1 (m.1 ++ ':' :: m.2), insertAssoc acc.2 name (String.mk m.2))
      else acc)
    (q, [])
  (stripChars r.1, r.2)

/-- Match of the phrase regex `"([^"]+)"` at the current position,
returning (group1, rest). -/
def phraseMatchAt (cs : List Char) : Option (List Char × List Char) :=
  match cs with
  | '"' :: rest =>
    let body := rest.takeWhile (fun c => c ≠ '"')
    if body.isEmpty then none
    else
      match rest.drop body.length with
      | '"' :: rest2 => some (body, rest2)
      | _ => none
  | _ => none

/-- `QueryParser._extract_phrases`: collect quoted phrases, append each
stripped non-empty phrase and remove its quoted text, then strip. -/
def extractPhrases (q : List Char) : List Char × List String :=
  let ms := scanMatches phraseMatchAt q.length q
  let r := ms.foldl
    (fun (acc : List Char × List String) body =>
      let phrase := stripChars body
      if phrase.isEmpty then acc
      else (replaceAll acc.1 ('"' :: body ++ ['"']), acc.2 ++ [String.mk phrase]))
    (q, [])
  (stripChars r.1, r.2)

/-- Characters of the regex class `[\w*]`. -/
def wsChar (c : Char) : Bool :=
  wordChar c || c = '*'

/-- Word-character test on an optional character (absent counts non-word). -/
def isWordO : Option Char → Bool
  | some c => wordChar c
  | none => false

/-- Python regex `\b`: a word boundary between two adjacent positions. -/
def boundary (a b : Option Char) : Bool :=
  isWordO a != isWordO b

/-- Match of the wildcard regex `\b[\w*]+\*[\w*]*\b|\b\*[\w*]+\b` at the
current position (`prev` is the preceding character, for `\b`), with the
greedy/backtracking behavior of the Python engine: the first alternative
takes the longest `[\w*]+` whose next character is a literal `*`, then the
longest `[\w*]*` tail ending at a word boundary. -/
def wildcardMatchAt (prev : Option Char) (cs : List Char) : Option (List Char × List Char) :=
  let run := cs.takeWhile wsChar
  let n := run.length
  let alt1 : Option (List Char × List Char) :=
    if boundary prev cs.head? then
      (((List.range n).filter (fun j => decide (1 ≤ j) && (run.get? j == some '*'))).reverse.findSome?
        (fun j =>
          (((List.range (n - j)).map (fun t => n - t)).find?
            (fun e => boundary (run.get? (e - 1)) (cs.get? e))).map
            (fun e => (cs.take e, cs.drop e))))
    else none
  match alt1 with
  | some r => some r
  | none =>
    match cs with
    | '*' :: rest =>
      if boundary prev (some '*') then
        let run2 := rest.takeWhile wsChar
        let m := run2.length
        (((List.range m).map (fun t => m - t)).find?
          (fun k => decide (1 ≤ k) && boundary (run2.get? (k - 1)) (cs.get? (k + 1)))).map
          (fun k => (cs.take (k + 1), cs.drop (k + 1)))
      else none
    | _ => none

/-- Scan for all wildcard matches, threading the previous character for the
word-boundary tests. -/
def findWildcardAux : Nat → Option Char → List Char → List (List Char)
  | 0, _, _ => []
  | _ + 1, _, [] => []
  | fuel + 1, prev, c :: cs =>
    match wildcardMatchAt prev (c :: cs) with
    | some (m, rest) => m :: findWildcardAux fuel m.getLast? rest
    | none => findWildcardAux fuel (some c) cs

/-- `QueryParser._extract_wildcards`: collect wildcard tokens, remove each
from the string, then strip. -/
def extractWildcards (q : List Char) : List Char × List String :=
  let ms := findWildcardAux q.length none q
  (stripChars (ms.foldl (fun acc m => replaceAll acc m) q), ms.map String.mk)

/-- Match of `NOT\s+(\w+)` (case-insensitive) at the current position,
returning ((group0, group1), rest). -/
def notMatchAt (cs : List Char) : Option ((List Char × List Char) × List Char) :=
  match cs with
  | c1 :: c2 :: c3 :: rest =>
    if c1.toLower = 'n' && c2.toLower = 'o' && c3.toLower = 't' then
      let sp := rest.takeWhile pySpace
      if sp.isEmpty then none
      else
        let rest2 := rest.drop sp.length
        let w := rest2.takeWhile wordChar
        if w.isEmpty then none
        else some ((c1 :: c2 :: c3 :: (sp ++ w), w), rest2.drop w.length)
    else none
  | _ => none

/-- Match of `(\w+)\s+OP\s+(\w+)` (case-insensitive, `op` given lowercase)
at the current position, returning ((group0, group1, group2), rest). -/
def binopMatchAt (op : List Char) (cs : List Char) : Option ((List Char × List Char × List Char) × List Char) :=
  let w1 := cs.takeWhile wordChar
  if w1.isEmpty then none
  else
    let r1 := cs.drop w1.length
    let sp1 := r1.takeWhile pySpace
    if sp1.isEmpty then none
    else
      let r2 := r1.drop sp1.length
      if lowerChars (r2.take op.length) = op ∧ op.length ≤ r2.length then
        let r3 := r2.drop op.length
        let sp2 := r3.takeWhile pySpace
        if sp2.isEmpty then none
        else
          let r4 := r3.drop sp2.length
          let w2 := r4.takeWhile wordChar
          if w2.isEmpty then none
          else some ((w1 ++ sp1 ++ r2.take op.length ++ sp2 ++ w2, w1, w2), r4.drop w2.length)
      else none

/-- Match of `+(\w+)` or `-(\w+)` at the current position (for a given sign
character), returning ((group0, group1), rest). -/
def signMatchAt (sign : Char) (cs : List Char) : Option ((List Char × List Char) × List Char) :=
  match cs with
  | c :: rest =>
    if c = sign then
      let w := rest.takeWhile wordChar
      if w.isEmpty then none else some ((c :: w, w), rest.drop w.length)
    else none
  | _ => none

/-- `QueryParser._parse_boolean`: extract NOT / AND / OR / `+term` / `-term`
constructs in that order, each stage matching against the string left by the
previous stage and removing every matched text; returns
(must_have, must_not_have, should_have, stripped remaining text). -/
def parseBoolean (q : List Char) : List String × List String × List String × List Char :=
  let notMs := scanMatches notMatchAt q.length q
  let mustNot1 := notMs.map (fun m => String.mk (lowerChars m.2))
  let q1 := notMs.foldl (fun acc m => replaceAll acc m.1) q
  let andMs := scanMatches (binopMatchAt ['a', 'n', 'd']) q1.length q1
  let must1 := andMs.foldl
    (fun acc m => acc ++ [String.mk (lowerChars m.2.1), String.mk (lowerChars m.2.2)]) []
  let q2 := andMs.foldl (fun acc m => replaceAll acc m.1) q1
  let orMs := scanMatches (binopMatchAt ['o', 'r']) q2.length q2
  let should := orMs.foldl
    (fun acc m => acc ++ [String.mk (lowerChars m.2.1), String.mk (lowerChars m.2.2)]) []
  let q3 := orMs.foldl (fun acc m => replaceAll acc m.1) q2
  let plusMs := scanMatches (signMatchAt '+') q3.length q3
  let must2 := must1 ++ plusMs.map (fun m => String.mk (lowerChars m.2))
  let q4 := plusMs.foldl (fun acc m => replaceAll acc m.1) q3
  let minusMs := scanMatches (signMatchAt '-') q4.length q4
  let mustNot2 := mustNot1 ++ minusMs.map (fun m => String.mk (lowerChars m.2))
  let q5 := minusMs.foldl (fun acc m => replaceAll acc m.1) q4
  (must2, mustNot2, should, stripChars q5)

/-- Maximal word-character runs of a string (`re.findall(r"\b\w+\b", text)`). -/
def wordRunsAux : Nat → List Char → List (List Char)
  | 0, _ => []
  | _ + 1, [] => []
  | fuel + 1, c :: cs =>
    if wordChar c then
      let run := (c :: cs).takeWhile wordChar
      run :: wordRunsAux fuel ((c :: cs).drop run.length)
    else wordRunsAux fuel cs

/-- `QueryParser._tokenize_terms` on the tokenizer-less path: words longer
than one character, lowercased. -/
def tokenizeTerms (cs : List Char) : List String :=
  ((wordRunsAux cs.length cs).filter (fun w => 1 < w.length)).map
    (fun w => String.mk (lowerChars w))

/-- The `ParsedQuery` dataclass. -/
structure ParsedQuery where
  original : String
  terms : List String
  phrases : List String
  must_have : List String
  must_not_have : List String
  should_have : List String
  wildcards : List String
  filters : List (String × String)
  is_simple : Bool
  deriving Repr, DecidableEq

/-- `QueryParser.parse` (with no tokenizer configured, as in the spec's
example): filters, then phrases, then wildcards, then boolean constructs,
then plain terms; `is_simple` is true iff every advanced collection is
empty. -/
def parseQuery (query : String) : ParsedQuery :=
  let q0 := query.data
  let f := extractFilters q0
  let p := extractPhrases f.1
  let w := extractWildcards p.1
  let b := parseBoolean w.1
  { original := query
    terms := tokenizeTerms b.2.2.2
    phrases := p.2
    must_have := b.1
    must_not_have := b.2.1
    should_have := b.2.2.1
    wildcards := w.2
    filters := f.2
    is_simple := p.2.isEmpty && w.2.isEmpty && f.2.isEmpty &&
      b.1.isEmpty && b.2.1.isEmpty && b.2.2.1.isEmpty }

/-- `QueryParser.validate_query`: empty check, then unmatched quotes, then
unknown filter names (boolean operator names are exempt). -/
def validateQuery (query : String) : Bool × Option String :=
  let q := query.data
  if (stripChars q).isEmpty then (false, some "Query cannot be empty")
  else if q.count '"' % 2 ≠ 0 then (false, some "Unmatched quotes in query")
  else
    let names := (findFilterMatches q).map (fun m => String.mk (lowerChars m.1))
    match names.find?
      (fun n => !(["and", "or", "not"].contains n) && !(supportedFilters.contains n)) with
    | some n => (false, some ("Unknown filter: " ++ n))
    | none => (true, none)

/-! ## Hybrid result blending (src/search/search_manager.py)

`SearchManager._blend_results` first walks the local results, boosting each
score by `local_boost`, tagging the source and recording every non-empty
local domain in `seen_domains` when deduplication is on; it then walks the
external results, skipping any whose domain was already seen, scoring the
rest by position decay times `freshness_boost`; finally it sorts everything
by score descending (Python sorts are stable) and truncates.
`_extract_domain` is `urlparse(url).netloc`. -/

/-- One search result dictionary, restricted to the keys `_blend_results`
reads or writes (`url`, `score`, `source`, `blend_position`; the remaining
keys are carried through untouched). -/
structure SearchResult where
  title : String
  url : String
  snippet : String
  score : ℚ
  source : String
  blend_position : Nat
  deriving Repr, DecidableEq

/-- Valid URL scheme prefix for `urlparse`: a letter followed by
letters, digits, `+`, `-` or `.`. -/
def validScheme : List Char → Bool
  | [] => false
  | c :: rest => c.isAlpha && rest.all (fun d => d.isAlphanum || d = '+' || d = '-' || d = '.')

/-- Strip a leading `scheme:` as `urlparse` does (only when the text before
the first colon is a valid scheme). -/
def dropScheme (cs : List Char) : List Char :=
  let pre := cs.takeWhile (fun c => c ≠ ':')
  if pre.length < cs.length && validScheme pre then cs.drop (pre.length + 1) else cs

/-- `SearchManager._extract_domain`: `urlparse(url).netloc` — present only
after `//`, running up to the next `/`, `?` or `#`; empty otherwise. -/
def netlocOf (url : String) : String :=
  match dropScheme url.data with
  | '/' :: '/' :: rest =>
    String.mk (rest.takeWhile (fun c => c ≠ '/' && c ≠ '?' && c ≠ '#'))
  | _ => ""

/-- One iteration of the local-results loop of `_blend_results`: boost the
score, tag the source and position, and (under deduplication) record the
non-empty domain as seen. -/
def localStep (dedup : Bool) (localBoost : ℚ)
    (acc : List SearchResult × List String) (p : Nat × SearchResult) :
    List SearchResult × List String :=
  (acc.1 ++
    [{ p.2 with score := p.2.score * localBoost, source := "local", blend_position := p.1 }],
   if dedup && netlocOf p.2.url ≠ "" && !acc.2.contains (netlocOf p.2.url) then
     acc.2 ++ [netlocOf p.2.url]
   else acc.2)

/-- The local-results loop of `_blend_results`, returning the scored local
results and the seen-domain set. -/
def blendLocalsPhase (dedup : Bool) (localBoost : ℚ) (locals : List SearchResult) :
    List SearchResult × List String :=
  locals.enum.foldl (localStep dedup localBoost) ([], [])

/-- One iteration of the API-results loop of `_blend_results`: skip the
result when deduplication is on and its domain was already seen, otherwise
record its non-empty domain and score it by position decay times the
freshness boost (`source` is left as carried by the result, matching
`result.get('source', 'api')` for results that carry the key). -/
def apiStep (dedup : Bool) (freshnessBoost : ℚ) (len : Nat)
    (acc : List SearchResult × List String) (p : Nat × SearchResult) :
    List SearchResult × List String :=
  if dedup && acc.2.contains (netlocOf p.2.url) then acc
  else
    (acc.1 ++
      [{ p.2 with
          score := (if len ≠ 0 then 1 - (p.1 : ℚ) / (len : ℚ) else 1) * freshnessBoost,
          blend_position := p.1 }],
     if dedup && netlocOf p.2.url ≠ "" then acc.2 ++ [netlocOf p.2.url] else acc.2)

/-- The API-results loop of `_blend_results`. -/
def blendApisPhase (dedup : Bool) (freshnessBoost : ℚ) (apis : List SearchResult)
    (seen0 : List String) : List SearchResult × List String :=
  apis.enum.foldl (apiStep dedup freshnessBoost apis.length) ([], seen0)

/-- Stable insertion into a descending-sorted list (an element is placed
before the first strictly smaller score, after all earlier equal scores). -/
def insertDesc (r : SearchResult) : List SearchResult → List SearchResult
  | [] => [r]
  | x :: xs => if r.score < x.score then x :: insertDesc r xs else r :: x :: xs

/-- Python's stable `list.sort(key=score, reverse=True)`. -/
def sortDesc (l : List SearchResult) : List SearchResult :=
  l.foldr insertDesc []

/-- The `max_results` guard of `_blend_results`: falsy or non-positive
values fall back to the default of 10 (`Config` has no
`DEFAULT_MAX_RESULTS` attribute, so `getattr` yields its default). -/
def guardMax (maxResults : Int) : Nat :=
  if maxResults ≤ 0 then 10 else maxResults.toNat

/-- `SearchManager._blend_results`. -/
def blendResults (dedup : Bool) (localBoost freshnessBoost : ℚ)
    (locals apis : List SearchResult) (maxResults : Int) : List SearchResult :=
  let ph1 := blendLocalsPhase dedup localBoost locals
  let ph2 := blendApisPhase dedup freshnessBoost apis ph1.2
  (sortDesc (ph1.1 ++ ph2.1)).take (guardMax maxResults)

/-- Invariant of the API-results loop under deduplication: the initial seen
set is preserved, no emitted result has a non-empty domain in the initial
seen set, every emitted non-empty domain is recorded as seen, and emitted
non-empty domains are pairwise distinct. -/
def ApiInv (seen0 : List String) (acc : List SearchResult × List String) : Prop :=
  seen0 ⊆ acc.2 ∧
  (∀ r ∈ acc.1, netlocOf r.url ≠ "" → netlocOf r.url ∉ seen0) ∧
  (∀ r ∈ acc.1, netlocOf r.url ≠ "" → netlocOf r.url ∈ acc.2) ∧
  acc.1.Pairwise (fun a b => netlocOf b.url ≠ "" → netlocOf b.url ≠ netlocOf a.url)

/-! ## Crawler (src/crawler/spider.py)

`Spider.crawl` clears the visited set and the counters, submits every seed
URL at depth 0 (without touching the visited set), then processes completed
tasks: each task fetches its URL, and on an HTML response indexes the page
(`index_document`), bumps the crawled counter and returns the same-domain
links; on failure it bumps the error counter.  For each returned link the
main loop schedules a new task only when the page budget remains, the next
depth is within `max_depth`, and the link is not yet visited — inserting it
into the visited set before submission.  We model the web as a function from
URL to `Option` of the extracted absolute fragment-stripped link targets
(`none` for fetch errors and non-HTML responses), and run the pool under a
sequential FIFO schedule, which is one admissible interleaving. -/

/-- State of one `crawl()` invocation: the visited set, the two counters,
and the ordered list of URLs passed to `index_document`. -/
structure CrawlState where
  visited : List String
  crawled : Nat
  errors : Nat
  indexed : List String
  deriving Repr, DecidableEq

/-- `Spider._crawl_and_extract` on one URL: on an HTML response, index the
page, bump the crawled counter and keep only same-domain links
(`_is_same_domain` compares `urlparse(...).netloc`); on error, bump the
error counter and return no links. -/
def crawlTask (web : String → Option (List String)) (st : CrawlState) (url : String) :
    CrawlState × List String :=
  match web url with
  | none => ({ st with errors := st.errors + 1 }, [])
  | some rawLinks =>
    ({ st with indexed := st.indexed ++ [url], crawled := st.crawled + 1 },
     rawLinks.filter (fun l => netlocOf url == netlocOf l))

/-- The scheduling loop over one task result: a link is submitted only when
the page budget remains and it is not yet visited, and it enters the visited
set together with its submission. -/
def scheduleLinks (maxPages : Nat) (nextDepth : Nat) (links : List String)
    (st : CrawlState) (queue : List (String × Nat)) :
    CrawlState × List (String × Nat) :=
  links.foldl
    (fun acc link =>
      if acc.1.crawled < maxPages && !acc.1.visited.contains link then
        ({ acc.1 with visited := acc.1.visited ++ [link] }, acc.2 ++ [(link, nextDepth)])
      else acc)
    (st, queue)

/-- The `while future_tasks` loop of `Spider.crawl` under a FIFO schedule:
pop a task, run it, and unless the page budget is exhausted or the next
depth exceeds `max_depth`, schedule its fresh links at `depth + 1`. -/
def crawlLoop (web : String → Option (List String)) (maxDepth maxPages : Nat) :
    Nat → CrawlState → List (String × Nat) → CrawlState
  | 0, st, _ => st
  | _ + 1, st, [] => st
  | fuel + 1, st, (url, depth) :: queue =>
    let res := crawlTask web st url
    if maxPages ≤ res.1.crawled then crawlLoop web maxDepth maxPages fuel res.1 queue
    else if depth + 1 ≤ maxDepth then
      let upd := scheduleLinks maxPages (depth + 1) res.2 res.1 queue
      crawlLoop web maxDepth maxPages fuel upd.1 upd.2
    else crawlLoop web maxDepth maxPages fuel res.1 queue

/-- Seed submission: seeds enter the task queue at depth 0; the only guard
is the (initially zero) crawled counter against the page budget, and the
visited set is not touched. -/
def submitSeeds (maxPages : Nat) (urls : List String) : List (String × Nat) :=
  if maxPages = 0 then [] else urls.map (fun u => (u, 0))

/-- The fresh per-crawl state: cleared visited set and zeroed counters. -/
def initialCrawlState : CrawlState :=
  { visited := [], crawled := 0, errors := 0, indexed := [] }

/-- `Spider.crawl` under the sequential FIFO schedule, with enough fuel. -/
def crawl (web : String → Option (List String)) (urls : List String)
    (maxDepth maxPages fuel : Nat) : CrawlState :=
  crawlLoop web maxDepth maxPages fuel initialCrawlState (submitSeeds maxPages urls)

/-- A one-page web: the page at `http://x/a` carries a same-domain link back
to itself (as produced by any fragment link once `urljoin` resolves it and
the fragment is stripped). -/
def selfLinkWeb : String → Option (List String) :=
  fun u => if u = "http://x/a" then some ["http://x/a"] else none

/-! ## Flush and the auto-flush timer (src/indexing/indexer.py)

`Indexer.flush` copies the index to a plain dict under the lock and hands it
to `Database.save_index`; it has no exception handler, so a storage failure
propagates to the caller.  `_auto_flush_loop` runs once per timer tick until
the stop event is set, wrapping each `flush()` in `try/except Exception:
pass`.  Storage is modelled as a fallible function into `Except`. -/

/-- The serialization step of `flush` (the dict copy is the identity on the
embedded association list). -/
def serializeIndex (idx : InvIndex) : InvIndex :=
  idx.map (fun e => (e.1, e.2))

/-- `Indexer.flush`: delegate to the storage save with no handler, so an
error raised by the save is the result of the call. -/
def flushIndexer (save : InvIndex → Except String Unit) (idx : InvIndex) :
    Except String Unit :=
  save (serializeIndex idx)

/-- The `try/except Exception: pass` around `flush()` inside the timer. -/
def swallow (r : Except String Unit) : Except String Unit :=
  match r with
  | Except.ok _ => Except.ok ()
  | Except.error _ => Except.ok ()

/-- Run `n` timer iterations starting at tick `k`, with the given loop body;
an exception escaping the body would kill the thread (propagate), otherwise
the count of completed flush attempts is returned. -/
def runTimerIters (body : Nat → Except String Unit) : Nat → Nat → Except String Nat
  | _, 0 => Except.ok 0
  | k, n + 1 =>
    match body k with
    | Except.ok _ => (runTimerIters body (k + 1) n).map (· + 1)
    | Except.error e => Except.error e

/-- `Indexer._auto_flush_loop` over `n` ticks before the stop event: each
tick attempts a flush with the per-tick save outcome, errors swallowed. -/
def autoFlushAttempts (save : Nat → Except String Unit) (n : Nat) : Except String Nat :=
  runTimerIters (fun k => swallow (save k)) 0 n

/-! ## Advanced ranker (src/ranking/advanced_ranker.py)

`AdvancedRanker` reads the indexer through a mapping interface: it treats
`indexer.index[term]` and `indexer.inverted_index[term]` as dictionaries
keyed by document id (`.keys()`, `doc_id in ...`).  Modelled from the spec:
the indexer attribute `inverted_index` and the dict-backed postings the
ranker was written against are absent from src/ (the src `Indexer` stores
`[doc_id, freq]` lists and has no `inverted_index`); per spec §3 the
inverted index is "a mapping from term to an unordered set of Postings, one
Posting per distinct document per term", so both attributes are embedded as
the same `InvIndex` map with key-membership per document.  The tokenizer
used for phrase sub-terms and the per-term clamped IDF values are
parameters. -/

/-- `term in self.indexer.index`. -/
def termInIndex (idx : InvIndex) (term : String) : Bool :=
  idx.any (fun e => e.1 == term)

/-- `doc_id in self.indexer.index[term]` on the mapping view. -/
def docInTerm (idx : InvIndex) (term doc : String) : Bool :=
  (docsOf (postingsFor idx term)).contains doc

/-- `AdvancedRanker._document_contains_all`. -/
def documentContainsAll (idx : InvIndex) (doc : String) (terms : List String) : Bool :=
  terms.all (fun t => termInIndex idx t && docInTerm idx t doc)

/-- `AdvancedRanker._document_contains_any`. -/
def documentContainsAny (idx : InvIndex) (doc : String) (terms : List String) : Bool :=
  terms.any (fun t => termInIndex idx t && docInTerm idx t doc)

/-- `AdvancedRanker._document_contains_phrase`: co-presence of all the
phrase's tokens (no positional check, as the code notes). -/
def documentContainsPhrase (tok : String → List String) (idx : InvIndex)
    (doc : String) (phrase : String) : Bool :=
  (tok phrase).all (fun t => termInIndex idx t && docInTerm idx t doc)

/-- `set.update`: add each element not yet present. -/
def addUnique (l : List String) (x : String) : List String :=
  if l.contains x then l else l ++ [x]

/-- The union part of `_get_candidate_documents`: documents holding any
plain, must-have or should-have term, or any phrase sub-term. -/
def candidateUnion (tok : String → List String) (idx : InvIndex) (p : ParsedQuery) :
    List String :=
  let c1 := (p.terms ++ p.must_have ++ p.should_have).foldl
    (fun acc t =>
      if termInIndex idx t then (docsOf (postingsFor idx t)).foldl addUnique acc else acc)
    []
  p.phrases.foldl
    (fun acc ph =>
      (tok ph).foldl
        (fun a t =>
          if termInIndex idx t then (docsOf (postingsFor idx t)).foldl addUnique a else a)
        acc)
    c1

/-- `AdvancedRanker._get_candidate_documents`: the union above, minus the
documents of every must-not-have term. -/
def candidateDocs (tok : String → List String) (idx : InvIndex) (p : ParsedQuery) :
    List String :=
  p.must_not_have.foldl
    (fun acc t =>
      if termInIndex idx t then
        acc.filter (fun d => !(docsOf (postingsFor idx t)).contains d)
      else acc)
    (candidateUnion tok idx p)

/-- Glob matching for `_match_wildcard`: the pattern is the wildcard with
`*` translated to `.*` and anchored on both sides; `.` matches any
character but a newline, remaining characters are literal (wildcard tokens
extracted by the parser contain only word characters and `*`). -/
def globMatch : List Char → List Char → Bool
  | [], [] => true
  | [], _ :: _ => false
  | '*' :: ps, [] => globMatch ps []
  | '*' :: ps, c :: cs =>
    globMatch ps (c :: cs) || (c ≠ '
' && globMatch ('*' :: ps) cs)
  | _ :: _, [] => false
  | q :: ps, c :: cs => q == c && globMatch ps cs
  termination_by pat text => (pat.length, text.length)

/-- `AdvancedRanker._match_wildcard`: all index terms matched by the
translated pattern. -/
def matchWildcard (idx : InvIndex) (w : String) : List String :=
  (idx.map Prod.fst).filter (fun t => globMatch w.data t.data)

/-- Python `max(scores)` for a non-empty list (`default=0` otherwise). -/
def listMax : List ℚ → ℚ
  | [] => 0
  | x :: xs => xs.foldl max x

/-- `AdvancedRanker._score_document`: zero when a must-have term is missing
or a must-not-have term is present; otherwise must-have BM25 ×1.5 bonuses,
plain-term BM25, a flat 10.0 per matched phrase, the best should-have BM25,
and BM25 for wildcard-matched terms present in the document (all with term
frequency 1, as in the code). -/
def scoreDocument (tok : String → List String) (idfOf : String → ℚ)
    (idx : InvIndex) (k1 b : ℚ) (doc : String) (p : ParsedQuery) : ℚ :=
  if p.must_have ≠ [] ∧ documentContainsAll idx doc p.must_have = false then 0
  else if p.must_not_have ≠ [] ∧ documentContainsAny idx doc p.must_not_have = true then 0
  else
    (if p.must_have ≠ [] then
        (p.must_have.map (fun t => calculateBm25Score idx k1 b (idfOf t) doc 1 * (3/2))).sum
      else 0)
    + (p.terms.map (fun t => calculateBm25Score idx k1 b (idfOf t) doc 1)).sum
    + (p.phrases.map (fun ph =>
        if documentContainsPhrase tok idx doc ph then (10 : ℚ) else 0)).sum
    + (if p.should_have ≠ [] then
        listMax (p.should_have.map (fun t => calculateBm25Score idx k1 b (idfOf t) doc 1))
      else 0)
    + (p.wildcards.map (fun w =>
        (((matchWildcard idx w).filter (fun t => docInTerm idx t doc)).map
          (fun t => calculateBm25Score idx k1 b (idfOf t) doc 1)).sum)).sum

/-- Stable insertion for the descending score sort of `_rank_advanced`. -/
def insertPairDesc (r : String × ℚ) : List (String × ℚ) → List (String × ℚ)
  | [] => [r]
  | x :: xs => if r.2 < x.2 then x :: insertPairDesc r xs else r :: x :: xs

/-- Python's stable `sort(key=score, reverse=True)` on (doc, score) pairs. -/
def sortPairsDesc (l : List (String × ℚ)) : List (String × ℚ) :=
  l.foldr insertPairDesc []

/-- `AdvancedRanker._apply_filters_to_results` returns the results
unchanged (filters are applied at retrieval level). -/
def applyFiltersToResults (results : List (String × ℚ))
    (filters : List (String × String)) : List (String × ℚ) :=
  results

/-- `AdvancedRanker._rank_advanced`: score every candidate, keep strictly
positive scores, sort descending, run the (identity) filter pass when
requested, truncate to `top_k`. -/
def rankAdvanced (tok : String → List String) (idfOf : String → ℚ)
    (idx : InvIndex) (k1 b : ℚ) (applyFilters : Bool) (p : ParsedQuery)
    (topK : Nat) : List (String × ℚ) :=
  if (candidateDocs tok idx p).isEmpty then []
  else
    (if applyFilters && !p.filters.isEmpty then
        applyFiltersToResults
          (sortPairsDesc (((candidateDocs tok idx p).map
            (fun d => (d, scoreDocument tok idfOf idx k1 b d p))).filter
              (fun x => 0 < x.2)))
          p.filters
      else
        sortPairsDesc (((candidateDocs tok idx p).map
          (fun d => (d, scoreDocument tok idfOf idx k1 b d p))).filter
            (fun x => 0 < x.2))).take topK

end Henzai

namespace Henzai

/-! ## Lemmas about the inverted index -/

theorem sumFreq_nil (key : String) : sumFreq [] key = 0 := rfl

theorem sumFreq_cons (a : String) (b : Nat) (t : List (String × Nat)) (key : String) :
    sumFreq ((a, b) :: t) key = (if a = key then b else 0) + sumFreq t key := by
  by_cases h : a = key <;> simp [sumFreq, List.filter_cons, h]

theorem docsOf_nil : docsOf [] = [] := rfl

theorem docsOf_cons (p : String × Nat) (tl : Postings) :
    docsOf (p :: tl) = p.1 :: docsOf tl := rfl

theorem mergePosting_cons_eq (k : String) (v : Nat) (tl : Postings) (f : Nat) :
    mergePosting ((k, v) :: tl) k f = (k, v + f) :: tl := by
  simp [mergePosting]

theorem mergePosting_cons_ne (k : String) (v : Nat) (tl : Postings) (d : String) (f : Nat)
    (h : k ≠ d) : mergePosting ((k, v) :: tl) d f = (k, v) :: mergePosting tl d f := by
  simp [mergePosting, h]

theorem sumFreq_mergePosting (ps : Postings) (d : String) (f : Nat) (key : String) :
    sumFreq (mergePosting ps d f) key = sumFreq ps key + (if d = key then f else 0) := by
  induction ps with
  | nil =>
    by_cases h : d = key <;> simp [mergePosting, sumFreq_cons, sumFreq_nil, h]
  | cons hd tl ih =>
    obtain ⟨k, v⟩ := hd
    by_cases hk : k = d
    · subst hk
      rw [mergePosting_cons_eq, sumFreq_cons, sumFreq_cons]
      by_cases hq : k = key <;> simp [hq] <;> omega
    · rw [mergePosting_cons_ne _ _ _ _ _ hk, sumFreq_cons, sumFreq_cons, ih]
      omega

theorem postingsFor_updateIndexTerm (idx : InvIndex) (term d : String) (f : Nat) (t : String) :
    postingsFor (updateIndexTerm idx term d f) t =
      if t = term then mergePosting (postingsFor idx term) d f else postingsFor idx t := by
  induction idx with
  | nil =>
    by_cases h : t = term
    · subst h; simp [updateIndexTerm, postingsFor]
    · simp [updateIndexTerm, postingsFor, h, Ne.symm h]
  | cons hd rest ih =>
    obtain ⟨t0, ps⟩ := hd
    by_cases h0 : t0 = term
    · subst h0
      by_cases ht : t = t0
      · subst ht; simp [updateIndexTerm, postingsFor]
      · simp [updateIndexTerm, postingsFor, ht, Ne.symm ht]
    · by_cases ht : t0 = t
      · subst ht
        simp [updateIndexTerm, h0, postingsFor, Ne.symm h0]
      · simp [updateIndexTerm, postingsFor, h0, ht, ih]

theorem freqIn_updateIndexTerm (idx : InvIndex) (tm d : String) (f : Nat) (term doc : String) :
    freqIn (updateIndexTerm idx tm d f) term doc =
      freqIn idx term doc + (if tm = term then (if d = doc then f else 0) else 0) := by
  unfold freqIn
  rw [postingsFor_updateIndexTerm]
  by_cases h : term = tm
  · subst h; simp [sumFreq_mergePosting]
  · simp [h, Ne.symm h]

theorem sumFreq_bumpCount (l : List (String × Nat)) (t key : String) :
    sumFreq (bumpCount l t) key = sumFreq l key + (if t = key then 1 else 0) := by
  induction l with
  | nil =>
    by_cases h : t = key <;> simp [bumpCount, sumFreq_cons, sumFreq_nil, h]
  | cons hd tl ih =>
    obtain ⟨k, v⟩ := hd
    by_cases hk : k = t
    · subst hk
      rw [show bumpCount ((k, v) :: tl) k = (k, v + 1) :: tl by simp [bumpCount]]
      rw [sumFreq_cons, sumFreq_cons]
      by_cases hq : k = key <;> simp [hq] <;> omega
    · rw [show bumpCount ((k, v) :: tl) t = (k, v) :: bumpCount tl t by simp [bumpCount, hk]]
      rw [sumFreq_cons, sumFreq_cons, ih]
      omega

theorem sumFreq_foldl_bumpCount (tokens : List String) (acc : List (String × Nat)) (key : String) :
    sumFreq (tokens.foldl bumpCount acc) key = sumFreq acc key + tokens.count key := by
  induction tokens generalizing acc with
  | nil => simp
  | cons hd tl ih =>
    rw [List.foldl_cons, ih, sumFreq_bumpCount, List.count_cons]
    by_cases h : hd = key <;> simp [h] <;> omega

theorem sumFreq_termFreqList (tokens : List String) (key : String) :
    sumFreq (termFreqList tokens) key = tokens.count key := by
  rw [termFreqList, sumFreq_foldl_bumpCount, sumFreq_nil]
  omega

theorem freqIn_foldl_entries (entries : List (String × Nat)) (idx : InvIndex)
    (d term doc : String) :
    freqIn (entries.foldl (fun i p => updateIndexTerm i p.1 d p.2) idx) term doc =
      freqIn idx term doc + (if d = doc then sumFreq entries term else 0) := by
  induction entries generalizing idx with
  | nil => simp [sumFreq_nil]
  | cons hd tl ih =>
    obtain ⟨k, v⟩ := hd
    rw [List.foldl_cons, ih, freqIn_updateIndexTerm, sumFreq_cons]
    by_cases h1 : d = doc <;> by_cases h2 : k = term <;> simp [h1, h2] <;> omega

theorem freqIn_indexDocument (idx : InvIndex) (d : String) (tokens : List String)
    (term doc : String) :
    freqIn (indexDocument idx d tokens) term doc =
      freqIn idx term doc + (if d = doc then tokens.count term else 0) := by
  unfold indexDocument
  rw [freqIn_foldl_entries, sumFreq_termFreqList]

theorem freqIn_foldl_calls (calls : List (String × List String)) (idx : InvIndex)
    (term doc : String) :
    freqIn (calls.foldl (fun i c => indexDocument i c.1 c.2) idx) term doc =
      freqIn idx term doc +
        (calls.map (fun c => if c.1 = doc then c.2.count term else 0)).sum := by
  induction calls generalizing idx with
  | nil => simp
  | cons hd tl ih =>
    rw [List.foldl_cons, ih, freqIn_indexDocument, List.map_cons, List.sum_cons]
    omega

theorem mem_docsOf_mergePosting {a : String} (ps : Postings) (d : String) (f : Nat)
    (h : a ∈ docsOf (mergePosting ps d f)) : a = d ∨ a ∈ docsOf ps := by
  induction ps with
  | nil => simpa [mergePosting, docsOf] using h
  | cons hd tl ih =>
    obtain ⟨k, v⟩ := hd
    by_cases hk : k = d
    · subst hk
      rw [mergePosting_cons_eq, docsOf_cons] at h
      rw [docsOf_cons]
      rcases List.mem_cons.mp h with h1 | h2
      · exact Or.inl h1
      · exact Or.inr (List.mem_cons_of_mem _ h2)
    · rw [mergePosting_cons_ne _ _ _ _ _ hk, docsOf_cons] at h
      rw [docsOf_cons]
      rcases List.mem_cons.mp h with h1 | h2
      · exact Or.inr (h1 ▸ List.mem_cons_self _ _)
      · rcases ih h2 with h3 | h4
        · exact Or.inl h3
        · exact Or.inr (List.mem_cons_of_mem _ h4)

theorem nodup_docsOf_mergePosting (ps : Postings) (d : String) (f : Nat)
    (h : (docsOf ps).Nodup) : (docsOf (mergePosting ps d f)).Nodup := by
  induction ps with
  | nil => simp [mergePosting, docsOf]
  | cons hd tl ih =>
    obtain ⟨k, v⟩ := hd
    rw [docsOf_cons, List.nodup_cons] at h
    by_cases hk : k = d
    · subst hk
      rw [mergePosting_cons_eq, docsOf_cons]
      exact List.nodup_cons.mpr h
    · rw [mergePosting_cons_ne _ _ _ _ _ hk, docsOf_cons, List.nodup_cons]
      refine ⟨?_, ih h.2⟩
      intro hmem
      rcases mem_docsOf_mergePosting tl d f hmem with h1 | h2
      · exact hk h1
      · exact h.1 h2

theorem indexWF_nil : IndexWF [] := by
  intro term
  simp [postingsFor, docsOf]

theorem indexWF_updateIndexTerm {idx : InvIndex} (h : IndexWF idx)
    (tm d : String) (f : Nat) : IndexWF (updateIndexTerm idx tm d f) := by
  intro term
  rw [postingsFor_updateIndexTerm]
  by_cases ht : term = tm
  · simp only [ht, if_true]
    exact nodup_docsOf_mergePosting _ _ _ (h tm)
  · simpa [ht] using h term

theorem indexWF_foldl_entries (entries : List (String × Nat)) {idx : InvIndex}
    (h : IndexWF idx) (d : String) :
    IndexWF (entries.foldl (fun i p => updateIndexTerm i p.1 d p.2) idx) := by
  induction entries generalizing idx with
  | nil => simpa using h
  | cons hd tl ih => exact ih (indexWF_updateIndexTerm h hd.1 d hd.2)

theorem indexWF_indexDocument {idx : InvIndex} (h : IndexWF idx)
    (d : String) (tokens : List String) : IndexWF (indexDocument idx d tokens) :=
  indexWF_foldl_entries _ h d

theorem indexWF_foldl_calls (calls : List (String × List String)) {idx : InvIndex}
    (h : IndexWF idx) :
    IndexWF (calls.foldl (fun i c => indexDocument i c.1 c.2) idx) := by
  induction calls generalizing idx with
  | nil => simpa using h
  | cons hd tl ih => exact ih (indexWF_indexDocument h hd.1 hd.2)

theorem indexWF_runIndexCalls (calls : List (String × List String)) :
    IndexWF (runIndexCalls calls) :=
  indexWF_foldl_calls calls indexWF_nil

/-- C1: over any sequence of `index_document` calls starting from the empty
index, each (term, document) pair has at most one posting, and the merged
frequency for that pair is the sum of the per-call term frequencies. -/
theorem c1_index_merge_invariant (calls : List (String × List String)) (term doc : String) :
    freqIn (runIndexCalls calls) term doc =
        (calls.map (fun c => if c.1 = doc then c.2.count term else 0)).sum
      ∧ (docsOf (postingsFor (runIndexCalls calls) term)).Nodup := by
  constructor
  · unfold runIndexCalls
    rw [freqIn_foldl_calls]
    simp [freqIn, postingsFor, sumFreq_nil]
  · exact indexWF_runIndexCalls calls term

end Henzai

namespace Henzai

/-! ## BM25 lemmas and theorems -/

theorem avgDocLength_nonneg (idx : InvIndex) : 0 ≤ avgDocLength idx := by
  unfold avgDocLength
  split
  · positivity
  · exact le_refl 0

theorem fracMono (c K t1 t2 : ℚ) (hc : 0 ≤ c) (hK : 0 ≤ K) (h0 : 0 ≤ t1) (h12 : t1 ≤ t2) :
    t1 * c / (t1 + K) ≤ t2 * c / (t2 + K) := by
  by_cases hz : t1 + K = 0
  · rw [hz, div_zero]
    exact div_nonneg (mul_nonneg (le_trans h0 h12) hc) (by linarith)
  · have hpos1 : 0 < t1 + K := lt_of_le_of_ne (by linarith) (Ne.symm hz)
    have hpos2 : 0 < t2 + K := by linarith
    rw [div_le_div_iff₀ hpos1 hpos2]
    nlinarith [mul_le_mul_of_nonneg_left h12 (mul_nonneg hc hK)]

/-- C5: for a fixed corpus (hence fixed document lengths, average length and
document-frequency statistics), the per-term BM25 score computed by
`_calculate_bm25_score` — with the IDF clamped to be non-negative — is
monotonically non-decreasing in the term frequency. -/
theorem c5_bm25_monotone_in_tf (idx : InvIndex) (k1 b r : ℚ) (docId : String)
    (tf1 tf2 : ℚ) (hk1 : 0 ≤ k1) (hb0 : 0 ≤ b) (hb1 : b ≤ 1)
    (h0 : 0 ≤ tf1) (h12 : tf1 ≤ tf2) :
    calculateBm25Score idx k1 b (max 0 r) docId tf1 ≤
      calculateBm25Score idx k1 b (max 0 r) docId tf2 := by
  unfold calculateBm25Score
  split
  · exact le_refl 0
  · rename_i havg
    have havgpos : 0 < avgDocLength idx :=
      lt_of_le_of_ne (avgDocLength_nonneg idx) (Ne.symm havg)
    set docLength : ℚ := (lookupNat (docLengths idx) docId : ℚ) with hdl
    have hdocLen : 0 ≤ docLength := by positivity
    have hnorm : 0 ≤ 1 - b + b * (docLength / avgDocLength idx) := by
      have h1 : 0 ≤ 1 - b := by linarith
      have h2 : 0 ≤ b * (docLength / avgDocLength idx) :=
        mul_nonneg hb0 (div_nonneg hdocLen (le_of_lt havgpos))
      linarith
    have hK : 0 ≤ k1 * (1 - b + b * (docLength / avgDocLength idx)) :=
      mul_nonneg hk1 hnorm
    have hc : (0:ℚ) ≤ k1 + 1 := by linarith
    exact mul_le_mul_of_nonneg_left
      (fracMono (k1 + 1) _ tf1 tf2 hc hK h0 h12) (le_max_left 0 r)

/-- Witness for C5 at a concrete corpus and concrete frequencies. -/
theorem c5_bm25_monotone_in_tf_witness :
    calculateBm25Score [("python", [("d1", 2)])] (3/2) (3/4) (max 0 1) "d1" 1 ≤
      calculateBm25Score [("python", [("d1", 2)])] (3/2) (3/4) (max 0 1) "d1" 2 :=
  c5_bm25_monotone_in_tf [("python", [("d1", 2)])] (3/2) (3/4) 1 "d1" 1 2
    (by norm_num) (by norm_num) (by norm_num) (by norm_num) (by norm_num)

/-- C9: when the corpus is empty the cached average document length is zero
and `_calculate_bm25_score` returns 0.0 by the zero-average guard, so the
length-normalization division is never executed with a zero divisor. -/
theorem c9_bm25_empty_corpus_guard (idx : InvIndex) (h : totalDocs idx = 0)
    (k1 b idf : ℚ) (docId : String) (tf : ℚ) :
    avgDocLength idx = 0 ∧ calculateBm25Score idx k1 b idf docId tf = 0 := by
  have havg : avgDocLength idx = 0 := by
    unfold avgDocLength
    simp [h]
  refine ⟨havg, ?_⟩
  unfold calculateBm25Score
  simp [havg]

/-- Witness for C9 at the empty index. -/
theorem c9_bm25_empty_corpus_guard_witness :
    avgDocLength [] = 0 ∧ calculateBm25Score [] (3/2) (3/4) 1 "d" 5 = 0 :=
  c9_bm25_empty_corpus_guard [] (by decide) (3/2) (3/4) 1 "d" 5

end Henzai

namespace Henzai

/-! ## Query parser theorems -/

theorem stripChars_eq_nil {cs : List Char} (h : ∀ c ∈ cs, pySpace c) :
    stripChars cs = [] := by
  unfold stripChars
  rw [List.dropWhile_eq_nil_iff.mpr h]
  rfl

/-- C7: parsing the spec's example query yields exactly the phrase
`quick fox`, the filter `site -> example.com`, the must-not-have term `cat`,
and a non-simple query. -/
theorem c7_parse_example :
    (parseQuery "\"quick fox\" site:example.com -cat").phrases = ["quick fox"] ∧
    (parseQuery "\"quick fox\" site:example.com -cat").filters = [("site", "example.com")] ∧
    (parseQuery "\"quick fox\" site:example.com -cat").must_not_have = ["cat"] ∧
    (parseQuery "\"quick fox\" site:example.com -cat").is_simple = false := by
  decide

/-- C10: a query that is empty or consists only of whitespace is rejected by
`validate_query` with the message `Query cannot be empty` (the empty check
runs before the quote and filter checks). -/
theorem c10_validate_rejects_empty (query : String) (h : ∀ c ∈ query.data, pySpace c) :
    validateQuery query = (false, some "Query cannot be empty") := by
  unfold validateQuery
  simp [stripChars_eq_nil h]

/-- Witness for C10 on a whitespace-only query. -/
theorem c10_validate_rejects_empty_witness :
    validateQuery "  " = (false, some "Query cannot be empty") :=
  c10_validate_rejects_empty "  " (by decide)

end Henzai

namespace Henzai

/-! ## Blending lemmas and theorems -/

theorem mem_insertDesc {b r : SearchResult} {l : List SearchResult}
    (h : b ∈ insertDesc r l) : b = r ∨ b ∈ l := by
  induction l with
  | nil => simpa [insertDesc] using h
  | cons x xs ih =>
    by_cases hx : r.score < x.score
    · rcases (by simpa [insertDesc, hx] using h : b = x ∨ b ∈ insertDesc r xs) with h1 | h2
      · exact Or.inr (by simp [h1])
      · rcases ih h2 with h3 | h4
        · exact Or.inl h3
        · exact Or.inr (by simp [h4])
    · rcases (by simpa [insertDesc, hx] using h : b = r ∨ b = x ∨ b ∈ xs) with h1 | h2
      · exact Or.inl h1
      · exact Or.inr (by simpa using h2)

theorem pairwise_insertDesc {r : SearchResult} {l : List SearchResult}
    (h : l.Pairwise (fun a b => b.score ≤ a.score)) :
    (insertDesc r l).Pairwise (fun a b => b.score ≤ a.score) := by
  induction l with
  | nil => simp [insertDesc]
  | cons x xs ih =>
    rw [List.pairwise_cons] at h
    by_cases hx : r.score < x.score
    · rw [show insertDesc r (x :: xs) = x :: insertDesc r xs by simp [insertDesc, hx]]
      rw [List.pairwise_cons]
      refine ⟨?_, ih h.2⟩
      intro b hb
      rcases mem_insertDesc hb with h1 | h2
      · exact h1 ▸ le_of_lt hx
      · exact h.1 b h2
    · rw [show insertDesc r (x :: xs) = r :: x :: xs by simp [insertDesc, hx]]
      rw [List.pairwise_cons]
      refine ⟨?_, List.pairwise_cons.mpr h⟩
      intro b hb
      rcases List.mem_cons.mp hb with h1 | h2
      · exact h1 ▸ not_lt.mp hx
      · exact le_trans (h.1 b h2) (not_lt.mp hx)

theorem sortDesc_pairwise (l : List SearchResult) :
    (sortDesc l).Pairwise (fun a b => b.score ≤ a.score) := by
  induction l with
  | nil => simp [sortDesc]
  | cons x xs ih => exact pairwise_insertDesc ih

/-- C6: the blended result list contains at most `maxResults` entries and is
sorted in descending order of blended score, for every positive
`maxResults` and any volume of local plus external results. -/
theorem c6_blend_truncated_and_sorted (dedup : Bool) (lb fb : ℚ)
    (locals apis : List SearchResult) (maxResults : Int) (h : 0 < maxResults) :
    (blendResults dedup lb fb locals apis maxResults).length ≤ maxResults.toNat ∧
    (blendResults dedup lb fb locals apis maxResults).Pairwise
      (fun a b => b.score ≤ a.score) := by
  have hg : guardMax maxResults = maxResults.toNat := by
    unfold guardMax
    simp [not_le.mpr h]
  constructor
  · unfold blendResults
    rw [hg, List.length_take]
    exact min_le_left _ _
  · unfold blendResults
    exact (sortDesc_pairwise _).sublist (List.take_sublist _ _)

/-- Witness for C6: three combined results, `maxResults = 2`. -/
theorem c6_blend_truncated_and_sorted_witness :
    (blendResults true (6/5) (11/10)
        [⟨"L1", "http://a.com/1", "", 1/10, "local", 0⟩,
         ⟨"L2", "http://b.com/2", "", 1/20, "local", 0⟩]
        [⟨"E1", "https://c.org/3", "", 0, "api", 0⟩] 2).length ≤ (2 : Int).toNat ∧
    (blendResults true (6/5) (11/10)
        [⟨"L1", "http://a.com/1", "", 1/10, "local", 0⟩,
         ⟨"L2", "http://b.com/2", "", 1/20, "local", 0⟩]
        [⟨"E1", "https://c.org/3", "", 0, "api", 0⟩] 2).Pairwise
      (fun a b => b.score ≤ a.score) :=
  c6_blend_truncated_and_sorted true (6/5) (11/10)
    [⟨"L1", "http://a.com/1", "", 1/10, "local", 0⟩,
     ⟨"L2", "http://b.com/2", "", 1/20, "local", 0⟩]
    [⟨"E1", "https://c.org/3", "", 0, "api", 0⟩] 2 (by norm_num)

/-- C4 as stated is false: with deduplication on, two local results sharing
the domain `example.com` are both kept, while the external `example.com`
result — whose blended weight `(1 - 0/1) * 1.1` exceeds both locals'
boosted scores — is the one dropped. -/
theorem c4_counterexample :
    ((blendResults true (6/5) (11/10)
        [⟨"L1", "http://example.com/a", "", 1/10, "local", 0⟩,
         ⟨"L2", "http://example.com/b", "", 1/20, "local", 0⟩]
        [⟨"E1", "https://example.com/c", "", 0, "api", 0⟩] 10).countP
        (fun r => netlocOf r.url == "example.com")) = 2 ∧
    ((blendResults true (6/5) (11/10)
        [⟨"L1", "http://example.com/a", "", 1/10, "local", 0⟩,
         ⟨"L2", "http://example.com/b", "", 1/20, "local", 0⟩]
        [⟨"E1", "https://example.com/c", "", 0, "api", 0⟩] 10).all
        (fun r => r.url != "https://example.com/c")) = true ∧
    ((blendResults true (6/5) (11/10)
        [⟨"L1", "http://example.com/a", "", 1/10, "local", 0⟩,
         ⟨"L2", "http://example.com/b", "", 1/20, "local", 0⟩]
        [⟨"E1", "https://example.com/c", "", 0, "api", 0⟩] 10).all
        (fun r => decide (r.score < ((1 : ℚ) - (0 : ℚ) / (1 : ℚ)) * (11/10)))) = true := by
  decide

end Henzai

namespace Henzai

/-! ## Deduplication lemmas and the amended C4 -/

theorem contains_false_not_mem {l : List String} {a : String}
    (h : ¬l.contains a = true) : a ∉ l :=
  fun hm => h (List.elem_iff.mpr hm)

theorem localFold_length (dedup : Bool) (lb : ℚ) (l : List (Nat × SearchResult))
    (acc : List SearchResult × List String) :
    (l.foldl (localStep dedup lb) acc).1.length = acc.1.length + l.length := by
  induction l generalizing acc with
  | nil => simp
  | cons hd tl ih =>
    rw [List.foldl_cons, ih]
    have hstep : (localStep dedup lb acc hd).1.length = acc.1.length + 1 := by
      simp [localStep]
    rw [hstep, List.length_cons]
    omega

theorem localStep_seen_super (dedup : Bool) (lb : ℚ)
    (acc : List SearchResult × List String) (p : Nat × SearchResult) :
    acc.2 ⊆ (localStep dedup lb acc p).2 := by
  unfold localStep
  dsimp only
  split
  · exact List.subset_append_left _ _
  · exact fun x hx => hx

theorem localFold_seen_mono (lb : ℚ) (l : List (Nat × SearchResult))
    (acc : List SearchResult × List String) :
    acc.2 ⊆ (l.foldl (localStep true lb) acc).2 := by
  induction l generalizing acc with
  | nil => simp
  | cons hd tl ih =>
    rw [List.foldl_cons]
    exact Set.Subset.trans (localStep_seen_super true lb acc hd) (ih _)

theorem localFold_seen_mem (lb : ℚ) (l : List (Nat × SearchResult))
    (acc : List SearchResult × List String) (p : Nat × SearchResult)
    (hp : p ∈ l) (hne : netlocOf p.2.url ≠ "") :
    netlocOf p.2.url ∈ (l.foldl (localStep true lb) acc).2 := by
  induction l generalizing acc with
  | nil => cases hp
  | cons hd tl ih =>
    rw [List.foldl_cons]
    rcases List.mem_cons.mp hp with h1 | h2
    · subst h1
      refine localFold_seen_mono lb tl _ ?_
      by_cases hc : acc.2.contains (netlocOf p.2.url)
      · have hmem : netlocOf p.2.url ∈ acc.2 := List.elem_iff.mp hc
        exact localStep_seen_super true lb acc p hmem
      · have hnm : netlocOf p.2.url ∉ acc.2 := contains_false_not_mem hc
        have hs : (localStep true lb acc p).2 = acc.2 ++ [netlocOf p.2.url] := by
          simp [localStep, hne, hnm]
        rw [hs]
        exact List.mem_append_right _ (List.mem_singleton.mpr rfl)
    · exact ih _ h2

theorem apiStep_inv {seen0 : List String} {acc : List SearchResult × List String}
    (h : ApiInv seen0 acc) (fb : ℚ) (len : Nat) (p : Nat × SearchResult) :
    ApiInv seen0 (apiStep true fb len acc p) := by
  obtain ⟨h1, h2, h3, h4⟩ := h
  unfold apiStep
  split
  · exact ⟨h1, h2, h3, h4⟩
  · rename_i hcc
    have hdmem : netlocOf p.2.url ∉ acc.2 := by
      intro hmem
      exact hcc (by simp [hmem])
    have hseen : acc.2 ⊆
        (if true && netlocOf p.2.url ≠ "" then acc.2 ++ [netlocOf p.2.url] else acc.2) := by
      split
      · exact List.subset_append_left _ _
      · exact fun x hx => hx
    refine ⟨Set.Subset.trans h1 hseen, ?_, ?_, ?_⟩
    · intro r hrm hne
      rcases List.mem_append.mp hrm with hin | hsing
      · exact h2 r hin hne
      · rcases List.mem_singleton.mp hsing with rfl
        exact fun hmem0 => hdmem (h1 hmem0)
    · intro r hrm hne
      rcases List.mem_append.mp hrm with hin | hsing
      · exact hseen (h3 r hin hne)
      · rcases List.mem_singleton.mp hsing with rfl
        have hcond : (true && netlocOf p.2.url ≠ "") = true := by
          simpa using hne
        rw [if_pos hcond]
        exact List.mem_append_right _ (List.mem_singleton.mpr rfl)
    · rw [List.pairwise_append]
      refine ⟨h4, List.pairwise_singleton _ _, ?_⟩
      intro a ha b hb
      rcases List.mem_singleton.mp hb with rfl
      intro hne heq
      exact hdmem (heq ▸ h3 a ha (heq ▸ hne))

theorem apiFold_inv {seen0 : List String} (fb : ℚ) (len : Nat)
    (l : List (Nat × SearchResult)) {acc : List SearchResult × List String}
    (h : ApiInv seen0 acc) :
    ApiInv seen0 (l.foldl (apiStep true fb len) acc) := by
  induction l generalizing acc with
  | nil => simpa using h
  | cons hd tl ih => exact ih (apiStep_inv h fb len hd)

theorem exists_enum_of_mem {l : List SearchResult} {a : SearchResult} (h : a ∈ l) :
    ∃ i, (i, a) ∈ l.enum := by
  obtain ⟨i, hi, hg⟩ := List.getElem_of_mem h
  refine ⟨i, ?_⟩
  rw [List.mk_mem_enum_iff_getElem?, List.getElem?_eq_getElem hi]
  exact congrArg some hg

/-- C4, amended: with deduplication enabled, every local result is kept (so
several local results may share a domain), every non-empty local domain is
recorded as seen, no kept external result has a non-empty domain equal to a
seen (local) domain, and kept external results have pairwise distinct
non-empty domains — in particular, when a local and an external result share
a non-empty domain the local entry is the one kept and the external is
dropped, regardless of blended weight; the blended output is the
score-sorted truncation of exactly these kept results. -/
theorem c4_amended_dedup_behavior (lb fb : ℚ) (locals apis : List SearchResult)
    (m : Int) :
    (blendLocalsPhase true lb locals).1.length = locals.length ∧
    (∀ r ∈ locals, netlocOf r.url ≠ "" →
        netlocOf r.url ∈ (blendLocalsPhase true lb locals).2) ∧
    (∀ r ∈ (blendApisPhase true fb apis (blendLocalsPhase true lb locals).2).1,
        netlocOf r.url ≠ "" →
        netlocOf r.url ∉ (blendLocalsPhase true lb locals).2) ∧
    (blendApisPhase true fb apis (blendLocalsPhase true lb locals).2).1.Pairwise
      (fun a b => netlocOf b.url ≠ "" → netlocOf b.url ≠ netlocOf a.url) ∧
    blendResults true lb fb locals apis m =
      (sortDesc ((blendLocalsPhase true lb locals).1 ++
        (blendApisPhase true fb apis (blendLocalsPhase true lb locals).2).1)).take
        (guardMax m) := by
  have hinv : ApiInv (blendLocalsPhase true lb locals).2
      (blendApisPhase true fb apis (blendLocalsPhase true lb locals).2) := by
    unfold blendApisPhase
    exact apiFold_inv fb apis.length apis.enum
      ⟨fun x hx => hx, by simp, by simp, List.Pairwise.nil⟩
  refine ⟨?_, ?_, hinv.2.1, hinv.2.2.2, rfl⟩
  · unfold blendLocalsPhase
    rw [localFold_length]
    simp
  · intro r hr hne
    obtain ⟨i, hi⟩ := exists_enum_of_mem hr
    unfold blendLocalsPhase
    exact localFold_seen_mem lb locals.enum _ (i, r) hi hne

/-- Witness for the amended C4 on a one-local, one-external instance. -/
theorem c4_amended_dedup_behavior_witness :
    (blendLocalsPhase true (6/5)
        [⟨"L1", "http://example.com/a", "", 1/10, "local", 0⟩]).1.length = 1 ∧
    netlocOf "http://example.com/a" ∈
      (blendLocalsPhase true (6/5)
        [⟨"L1", "http://example.com/a", "", 1/10, "local", 0⟩]).2 :=
  ⟨(c4_amended_dedup_behavior (6/5) (11/10)
      [⟨"L1", "http://example.com/a", "", 1/10, "local", 0⟩]
      [⟨"E1", "https://example.com/c", "", 0, "api", 0⟩] 10).1,
   (c4_amended_dedup_behavior (6/5) (11/10)
      [⟨"L1", "http://example.com/a", "", 1/10, "local", 0⟩]
      [⟨"E1", "https://example.com/c", "", 0, "api", 0⟩] 10).2.1
     ⟨"L1", "http://example.com/a", "", 1/10, "local", 0⟩
     (List.mem_singleton.mpr rfl) (by decide)⟩

end Henzai

namespace Henzai

/-! ## Crawler and flush theorems -/

/-- C3 fails on the code: seeds are submitted with the visited set still
empty (they are never marked visited), so a seed reachable from its own page
is scheduled again as a discovered link and `index_document` runs twice for
the same URL within one crawl. -/
theorem c3_seed_unvisited_and_indexed_twice :
    (crawl selfLinkWeb ["http://x/a"] 1 10000 10).indexed =
        ["http://x/a", "http://x/a"] ∧
    submitSeeds 10000 ["http://x/a"] = [("http://x/a", 0)] ∧
    initialCrawlState.visited = [] := by
  decide

/-- C8: a storage failure propagates out of an explicit `flush()` call,
while inside the periodic timer every failure is swallowed, so the loop
completes every scheduled flush attempt regardless of how the per-tick save
outcomes fail. -/
theorem c8_flush_error_policy :
    (∀ (save : InvIndex → Except String Unit) (idx : InvIndex) (e : String),
        save (serializeIndex idx) = Except.error e →
        flushIndexer save idx = Except.error e) ∧
    (∀ (save : Nat → Except String Unit) (n : Nat),
        autoFlushAttempts save n = Except.ok n) := by
  constructor
  · intro save idx e h
    exact h
  · intro save n
    have hgen : ∀ (m k : Nat), runTimerIters (fun j => swallow (save j)) k m = Except.ok m := by
      intro m
      induction m with
      | zero => intro k; rfl
      | succ m2 ih =>
        intro k
        have hsw : swallow (save k) = Except.ok () := by
          cases save k <;> rfl
        simp only [runTimerIters, hsw, ih, Except.map]
    exact hgen n 0

/-- Witness for C8: a save that always fails surfaces its error from an
explicit flush and still completes all three timer attempts. -/
theorem c8_flush_error_policy_witness :
    flushIndexer (fun _ => Except.error "disk full") [] = Except.error "disk full" ∧
    autoFlushAttempts (fun _ => Except.error "disk full") 3 = Except.ok 3 :=
  ⟨c8_flush_error_policy.1 (fun _ => Except.error "disk full") [] "disk full" rfl,
   c8_flush_error_policy.2 (fun _ => Except.error "disk full") 3⟩

end Henzai

namespace Henzai

/-! ## Advanced ranker theorems -/

theorem mem_insertPairDesc {x r : String × ℚ} {l : List (String × ℚ)}
    (h : x ∈ insertPairDesc r l) : x = r ∨ x ∈ l := by
  induction l with
  | nil => simpa [insertPairDesc] using h
  | cons y ys ih =>
    by_cases hy : r.2 < y.2
    · rcases (by simpa [insertPairDesc, hy] using h : x = y ∨ x ∈ insertPairDesc r ys) with
        h1 | h2
      · exact Or.inr (by simp [h1])
      · rcases ih h2 with h3 | h4
        · exact Or.inl h3
        · exact Or.inr (by simp [h4])
    · rcases (by simpa [insertPairDesc, hy] using h : x = r ∨ x = y ∨ x ∈ ys) with h1 | h2
      · exact Or.inl h1
      · exact Or.inr (by simpa using h2)

theorem mem_sortPairsDesc {x : String × ℚ} {l : List (String × ℚ)}
    (h : x ∈ sortPairsDesc l) : x ∈ l := by
  induction l with
  | nil => simpa [sortPairsDesc] using h
  | cons y ys ih =>
    rcases mem_insertPairDesc (by simpa [sortPairsDesc] using h) with h1 | h2
    · simp [h1]
    · exact List.mem_cons_of_mem _ (ih (by simpa [sortPairsDesc] using h2))

theorem candidateDocs_subset (tok : String → List String) (idx : InvIndex)
    (p : ParsedQuery) : candidateDocs tok idx p ⊆ candidateUnion tok idx p := by
  unfold candidateDocs
  generalize candidateUnion tok idx p = acc
  induction p.must_not_have generalizing acc with
  | nil => simp
  | cons t ts ih =>
    rw [List.foldl_cons]
    refine Set.Subset.trans (ih _) ?_
    split
    · exact fun x hx => (List.mem_filter.mp hx).1
    · exact fun x hx => hx

theorem scoreDocument_pos {tok : String → List String} {idfOf : String → ℚ}
    {idx : InvIndex} {k1 b : ℚ} {doc : String} {p : ParsedQuery}
    (h : 0 < scoreDocument tok idfOf idx k1 b doc p) :
    documentContainsAll idx doc p.must_have = true ∧
    documentContainsAny idx doc p.must_not_have = false := by
  unfold scoreDocument at h
  by_cases h1 : p.must_have ≠ [] ∧ documentContainsAll idx doc p.must_have = false
  · rw [if_pos h1] at h
    exact absurd h (lt_irrefl 0)
  · rw [if_neg h1] at h
    by_cases h2 : p.must_not_have ≠ [] ∧ documentContainsAny idx doc p.must_not_have = true
    · rw [if_pos h2] at h
      exact absurd h (lt_irrefl 0)
    · push_neg at h1 h2
      constructor
      · by_cases hm : p.must_have = []
        · simp [documentContainsAll, hm]
        · cases hb : documentContainsAll idx doc p.must_have with
          | true => rfl
          | false => exact absurd hb (h1 hm)
      · by_cases hm : p.must_not_have = []
        · simp [documentContainsAny, hm]
        · cases hb : documentContainsAny idx doc p.must_not_have with
          | false => rfl
          | true => exact absurd hb (h2 hm)

theorem mem_rankAdvanced {tok : String → List String} {idfOf : String → ℚ}
    {idx : InvIndex} {k1 b : ℚ} {applyF : Bool} {p : ParsedQuery} {topK : Nat}
    {x : String × ℚ} (h : x ∈ rankAdvanced tok idfOf idx k1 b applyF p topK) :
    x.1 ∈ candidateDocs tok idx p ∧
    x.2 = scoreDocument tok idfOf idx k1 b x.1 p ∧ 0 < x.2 := by
  unfold rankAdvanced at h
  by_cases hemp : (candidateDocs tok idx p).isEmpty = true
  · rw [if_pos hemp] at h
    cases h
  · rw [if_neg hemp] at h
    have h2 := List.take_subset _ _ h
    have h3 : x ∈ sortPairsDesc (((candidateDocs tok idx p).map
        (fun d => (d, scoreDocument tok idfOf idx k1 b d p))).filter
          (fun y => decide (0 < y.2))) := by
      by_cases hf : (applyF && !p.filters.isEmpty) = true
      · rw [if_pos hf] at h2
        exact h2
      · rw [if_neg hf] at h2
        exact h2
    obtain ⟨hmem, hpred⟩ := List.mem_filter.mp (mem_sortPairsDesc h3)
    rcases List.mem_map.mp hmem with ⟨c, hc, he⟩
    subst he
    exact ⟨hc, rfl, by simpa using hpred⟩

/-- C2: every document returned by the advanced ranking of a parsed query
lies in the union of the postings of its plain, must-have, should-have and
phrase sub-terms, contains all must-have terms, and contains no
must-not-have term — documents failing either check score 0 and are
excluded from the results. -/
theorem c2_advanced_ranker_candidates_and_exclusions
    (tok : String → List String) (idfOf : String → ℚ) (idx : InvIndex)
    (k1 b : ℚ) (applyF : Bool) (p : ParsedQuery) (topK : Nat) (d : String)
    (hd : d ∈ (rankAdvanced tok idfOf idx k1 b applyF p topK).map Prod.fst) :
    d ∈ candidateUnion tok idx p ∧
    documentContainsAll idx d p.must_have = true ∧
    documentContainsAny idx d p.must_not_have = false := by
  rcases List.mem_map.mp hd with ⟨x, hx, rfl⟩
  obtain ⟨hc, hs, hpos⟩ := mem_rankAdvanced hx
  have hp : 0 < scoreDocument tok idfOf idx k1 b x.1 p := hs ▸ hpos
  exact ⟨candidateDocs_subset tok idx p hc, (scoreDocument_pos hp).1,
    (scoreDocument_pos hp).2⟩

/-- Witness for C2 on a one-term index and a must-have-only parsed query. -/
theorem c2_advanced_ranker_candidates_and_exclusions_witness :
    "d1" ∈ candidateUnion (fun _ => [])
        [("python", [("d1", 2)])] ⟨"", [], [], ["python"], [], [], [], [], false⟩ ∧
    documentContainsAll [("python", [("d1", 2)])] "d1"
      (ParsedQuery.must_have ⟨"", [], [], ["python"], [], [], [], [], false⟩) = true ∧
    documentContainsAny [("python", [("d1", 2)])] "d1"
      (ParsedQuery.must_not_have ⟨"", [], [], ["python"], [], [], [], [], false⟩) = false :=
  c2_advanced_ranker_candidates_and_exclusions (fun _ => []) (fun _ => 1)
    [("python", [("d1", 2)])] (3/2) (3/4) true
    ⟨"", [], [], ["python"], [], [], [], [], false⟩ 10 "d1" (by decide)

end Henzai
